import Mathlib

/-
  Verification of the Schnorr signature core of the repository
  (src/lib/signature.ts) against its natural-language specification.

  The base field is modelled as ZMod p and the scalar field as ZMod q.
  The external collaborators (Field.sqrt, bit decomposition, the Group
  abstraction and the Poseidon hash) are not part of the repository
  sources, so they are modelled from the spec, as marked below.
-/

namespace O1jsSignature

/-- Modelled from the spec: the external bit decomposition toBits of a
field element; the element with the low bit of the canonical (least
nonnegative) representative. Used as toBits()[0] in the source. -/
def lowBit {p : ℕ} (y : ZMod p) : Bool := decide (y.val % 2 = 1)

/-- Modelled from the spec: the external Field.sqrt, the canonical
square root of the field (here: the root with the smallest canonical
representative); none when no square root exists, which is the invalid
point condition surfaced by decompression. -/
def fieldSqrt? {p : ℕ} (s : ZMod p) : Option (ZMod p) :=
  ((List.range p).find? (fun n : ℕ => decide ((n : ZMod p) * (n : ZMod p) = s))).map
    (fun n : ℕ => (n : ZMod p))

/-- Bool.toField of the source: true maps to 1, false maps to 0. -/
def boolToField {p : ℕ} (b : Bool) : ZMod p := if b then 1 else 0

/-- PrivateKey of the source: one scalar field element s. -/
structure PrivateKey (q : ℕ) where
  s : ZMod q
  deriving DecidableEq

/-- PublicKey of the source: a compressed curve point, the x coordinate
together with the parity bit of y. -/
structure PublicKey (p : ℕ) where
  x : ZMod p
  isOdd : Bool
  deriving DecidableEq

/-- Signature of the source: the x coordinate r of the nonce commitment
and the scalar s. -/
structure Signature (p q : ℕ) where
  r : ZMod p
  s : ZMod q
  deriving DecidableEq

/-- Modelled from the spec: the external elliptic curve Group
abstraction. Points are coordinate pairs; the interface provides a fixed
generator, point addition and scalar multiplication. -/
structure GroupOps (p q : ℕ) where
  generator : ZMod p × ZMod p
  add : ZMod p × ZMod p → ZMod p × ZMod p → ZMod p × ZMod p
  scale : ZMod p × ZMod p → ZMod q → ZMod p × ZMod p

/-- Modelled from the spec: Group negation; on a short Weierstrass curve
the negative of (x, y) is (x, -y). -/
def pointNeg {p : ℕ} (P : ZMod p × ZMod p) : ZMod p × ZMod p := (P.1, -P.2)

/-- A coordinate pair satisfying the curve equation of the spec,
y ^ 2 = x ^ 3 + 5. -/
def onCurve {p : ℕ} (P : ZMod p × ZMod p) : Prop :=
  P.2 * P.2 = P.1 * P.1 * P.1 + 5

instance instDecOnCurve {p : ℕ} (P : ZMod p × ZMod p) : Decidable (onCurve P) :=
  decidable_of_iff (P.2 * P.2 = P.1 * P.1 * P.1 + 5) Iff.rfl

/-- Modelled from the spec: the laws the spec requires of the external
group arithmetic on the cyclic group generated by the fixed generator,
stated on affine pairs and therefore guarded by the side conditions that
keep every point appearing in a law away from the point at infinity
(scalars that are 0 in the scalar field). -/
structure GroupSpec (p q : ℕ) (g : GroupOps p q) : Prop where
  scale_on_curve : ∀ a : ZMod q, a ≠ 0 → onCurve (g.scale g.generator a)
  scale_neg : ∀ a : ZMod q, a ≠ 0 →
    g.scale g.generator (-a) = pointNeg (g.scale g.generator a)
  scale_add : ∀ a b : ZMod q, a ≠ 0 → b ≠ 0 → a + b ≠ 0 →
    g.add (g.scale g.generator a) (g.scale g.generator b) = g.scale g.generator (a + b)
  scale_scale : ∀ a b : ZMod q, a ≠ 0 → b ≠ 0 →
    g.scale (g.scale g.generator a) b = g.scale g.generator (a * b)
  neg_scale : ∀ (P : ZMod p × ZMod p) (b : ZMod q), onCurve P → b ≠ 0 →
    pointNeg (g.scale P b) = g.scale P (-b)
  scale_snd_ne : ∀ a : ZMod q, a ≠ 0 → (g.scale g.generator a).2 ≠ 0

namespace PublicKey

/-- PublicKey.toGroup of the source: decompression. Computes
ySquared = x * x * x + 5, takes the canonical square root someY, and
selects y by the branch free expression
isTheRightY.toField * someY + isTheRightY.not.toField * someY.neg. -/
def toGroup {p : ℕ} (pk : PublicKey p) : Option (ZMod p × ZMod p) :=
  (fieldSqrt? (pk.x * pk.x * pk.x + 5)).map fun someY =>
    let isTheRightY : Bool := pk.isOdd == lowBit someY
    (pk.x, boolToField isTheRightY * someY + boolToField (!isTheRightY) * (-someY))

/-- PublicKey.fromGroup of the source: compression, isOdd is the low bit
of y. -/
def fromGroup {p : ℕ} (P : ZMod p × ZMod p) : PublicKey p :=
  ⟨P.1, lowBit P.2⟩

/-- PublicKey.fromPrivateKey of the source: compress the scalar multiple
of the generator. -/
def fromPrivateKey {p q : ℕ} (g : GroupOps p q) (sk : PrivateKey q) : PublicKey p :=
  fromGroup (g.scale g.generator sk.s)

/-- PublicKey.empty of the source: the sentinel with x = 0 and
isOdd = false. -/
def empty (p : ℕ) : PublicKey p := ⟨0, false⟩

/-- PublicKey.isEmpty of the source: x.isZero. -/
def isEmpty {p : ℕ} (pk : PublicKey p) : Bool := decide (pk.x = 0)

end PublicKey

/-- Modelled from the spec: Scalar.fromBits applied to the bit
decomposition of a field element reinterprets the same natural number in
the scalar field. -/
def scalarFromBits {p : ℕ} (q : ℕ) (h : ZMod p) : ZMod q := (h.val : ZMod q)

namespace Signature

/-- Signature.create of the source, with the randomly sampled nonce made
an explicit input kPrime and the Poseidon hash an explicit parameter.
Returns none exactly when the decompression inside it fails. -/
def create {p q : ℕ} (g : GroupOps p q) (hash : List (ZMod p) → ZMod p)
    (privKey : PrivateKey q) (msg : List (ZMod p)) (kPrime : ZMod q) :
    Option (Signature p q) :=
  (PublicKey.toGroup (PublicKey.fromPrivateKey g privKey)).map fun publicKey =>
    let d := privKey.s
    let r := (g.scale g.generator kPrime).1
    let ry := (g.scale g.generator kPrime).2
    let k := if lowBit ry then -kPrime else kPrime
    let e : ZMod q := scalarFromBits q (hash (msg ++ [publicKey.1, publicKey.2, r]))
    ⟨r, e * d + k⟩

/-- Signature.verify of the source, with the Poseidon hash an explicit
parameter. Returns none exactly when decompression of the public key
fails. -/
def verify {p q : ℕ} (g : GroupOps p q) (hash : List (ZMod p) → ZMod p)
    (sig : Signature p q) (publicKey : PublicKey p) (msg : List (ZMod p)) :
    Option Bool :=
  (PublicKey.toGroup publicKey).map fun point =>
    let e : ZMod q := scalarFromBits q (hash (msg ++ [point.1, point.2, sig.r]))
    let rPt := g.add (pointNeg (g.scale point e)) (g.scale g.generator sig.s)
    (decide (rPt.1 = sig.r)) && (decide (lowBit rPt.2 = false))

end Signature

/-- The square root model returns a genuine square root whenever it
returns at all. -/
theorem fieldSqrt?_sq {p : ℕ} {s r : ZMod p} (h : fieldSqrt? s = some r) :
    r * r = s := by
  unfold fieldSqrt? at h
  cases hf : (List.range p).find? (fun n : ℕ => decide ((n : ZMod p) * (n : ZMod p) = s)) with
  | none => rw [hf] at h; exact absurd h (by simp)
  | some n =>
    rw [hf] at h
    have hpred := List.find?_some hf
    have hn : (n : ZMod p) * (n : ZMod p) = s := by simpa using hpred
    have hr : (n : ZMod p) = r := by simpa using h
    rw [← hr]; exact hn

/-- The square root model succeeds on every quadratic residue. -/
theorem fieldSqrt?_exists {p : ℕ} [NeZero p] {s : ZMod p}
    (h : ∃ y : ZMod p, y * y = s) :
    ∃ r : ZMod p, fieldSqrt? s = some r ∧ r * r = s := by
  obtain ⟨y, hy⟩ := h
  have hmem : ((List.range p).find?
      (fun n : ℕ => decide ((n : ZMod p) * (n : ZMod p) = s))).isSome := by
    rw [List.find?_isSome]
    refine ⟨y.val, List.mem_range.mpr y.val_lt, ?_⟩
    have hc : ((y.val : ℕ) : ZMod p) = y := ZMod.natCast_rightInverse y
    simp [hc, hy]
  obtain ⟨n, hn⟩ := Option.isSome_iff_exists.mp hmem
  have hpred := List.find?_some hn
  refine ⟨(n : ZMod p), ?_, by simpa using hpred⟩
  unfold fieldSqrt?
  rw [hn]; rfl

/-- The square root model fails exactly on the non residues. -/
theorem fieldSqrt?_eq_none {p : ℕ} {s : ZMod p}
    (h : ¬ ∃ y : ZMod p, y * y = s) : fieldSqrt? s = none := by
  unfold fieldSqrt?
  cases hf : (List.range p).find? (fun n : ℕ => decide ((n : ZMod p) * (n : ZMod p) = s)) with
  | none => rfl
  | some n =>
    have hpred := List.find?_some hf
    exact absurd ⟨(n : ZMod p), by simpa using hpred⟩ h

/-- Negation flips the low bit of a nonzero element of an odd modulus
field. -/
theorem lowBit_neg {p : ℕ} [NeZero p] (hp : p % 2 = 1) {y : ZMod p} (hy : y ≠ 0) :
    lowBit (-y) = !lowBit y := by
  have h1 : y.val < p := y.val_lt
  have h2 : y.val ≠ 0 := fun h => hy ((ZMod.val_eq_zero y).mp h)
  unfold lowBit
  rw [ZMod.neg_val, if_neg hy]
  rcases Nat.mod_two_eq_zero_or_one y.val with hb | hb
  · have hstep : (p - y.val) % 2 = 1 := by omega
    simp [hstep, hb]
  · have hstep : (p - y.val) % 2 = 0 := by omega
    simp [hstep, hb]

/-- The element zero has low bit false. -/
theorem lowBit_zero {p : ℕ} [NeZero p] : lowBit (0 : ZMod p) = false := by
  unfold lowBit
  simp [ZMod.val_zero]

/-- The branch free selection of the source equals an if then else. -/
theorem boolToField_select {p : ℕ} (b : Bool) (a : ZMod p) :
    boolToField b * a + boolToField (!b) * (-a) = if b then a else -a := by
  cases b <;> simp [boolToField]

/-- Decompression unfolded: on a residue input it returns the x
coordinate together with the parity corrected square root. -/
theorem toGroup_eq_some {p : ℕ} {pk : PublicKey p} {someY : ZMod p}
    (h : fieldSqrt? (pk.x * pk.x * pk.x + 5) = some someY) :
    PublicKey.toGroup pk =
      some (pk.x, if pk.isOdd == lowBit someY then someY else -someY) := by
  unfold PublicKey.toGroup
  rw [h, Option.map_some']
  simp only [boolToField_select]

/-- A decompressed point lies on the curve and keeps the x coordinate. -/
theorem toGroup_onCurve {p : ℕ} {pk : PublicKey p} {P : ZMod p × ZMod p}
    (h : PublicKey.toGroup pk = some P) : onCurve P ∧ P.1 = pk.x := by
  unfold PublicKey.toGroup at h
  cases hf : fieldSqrt? (pk.x * pk.x * pk.x + 5) with
  | none => rw [hf] at h; exact absurd h (by simp)
  | some someY =>
    rw [hf, Option.map_some'] at h
    have hsq := fieldSqrt?_sq hf
    have hP : P = (pk.x, boolToField (pk.isOdd == lowBit someY) * someY +
        boolToField (!(pk.isOdd == lowBit someY)) * (-someY)) := by
      simpa using h.symm
    rw [hP]
    refine ⟨?_, rfl⟩
    show (boolToField (pk.isOdd == lowBit someY) * someY +
        boolToField (!(pk.isOdd == lowBit someY)) * (-someY)) *
        (boolToField (pk.isOdd == lowBit someY) * someY +
        boolToField (!(pk.isOdd == lowBit someY)) * (-someY)) =
        pk.x * pk.x * pk.x + 5
    rw [boolToField_select]
    cases pk.isOdd == lowBit someY with
    | false => simpa [neg_mul_neg] using hsq
    | true => simpa using hsq

/-- Decompression inverts compression on every curve point. -/
theorem toGroup_fromGroup {p : ℕ} [Fact p.Prime] (hp : p % 2 = 1)
    (P : ZMod p × ZMod p) (hP : onCurve P) :
    PublicKey.toGroup (PublicKey.fromGroup P) = some P := by
  obtain ⟨someY, hsq, hss⟩ :=
    fieldSqrt?_exists (⟨P.2, hP⟩ : ∃ y : ZMod p, y * y = P.1 * P.1 * P.1 + 5)
  have h1 : PublicKey.toGroup (PublicKey.fromGroup P) =
      some (P.1, if lowBit P.2 == lowBit someY then someY else -someY) :=
    @toGroup_eq_some p (PublicKey.fromGroup P) someY hsq
  rw [h1]
  have hcases : someY = P.2 ∨ someY = -P.2 :=
    mul_self_eq_mul_self_iff.mp (hss.trans hP.symm)
  rcases hcases with hc | hc
  · subst hc
    simp
  · by_cases hy0 : P.2 = 0
    · rw [hy0] at hc
      rw [hc, hy0]
      simp only [neg_zero, Option.some.injEq]
      rw [if_pos (by simp [lowBit_zero, hy0])]
      exact congrArg (Prod.mk P.1) hy0.symm
    · have hlb : lowBit someY = !lowBit P.2 := by
        rw [hc]; exact lowBit_neg hp hy0
      rw [hlb, hc]
      simp

/-- Affine chord and tangent addition on the curve, used only to build a
concrete instance of the group interface for witnesses; the pair (0, 0)
stands in for the point at infinity and the field inverse is computed as
the power p - 2. -/
def ecAdd {p : ℕ} (P Q : ZMod p × ZMod p) : ZMod p × ZMod p :=
  if P.1 = Q.1 then
    (if P.2 = -Q.2 then (0, 0)
     else
       let l := (3 * P.1 * P.1) * (2 * P.2) ^ (p - 2)
       let x3 := l * l - P.1 - Q.1
       (x3, l * (P.1 - x3) - P.2))
  else
    let l := (Q.2 - P.2) * (Q.1 - P.1) ^ (p - 2)
    let x3 := l * l - P.1 - Q.1
    (x3, l * (P.1 - x3) - P.2)

/-- Iterated addition, building the scalar multiplication of the
concrete witness instance. -/
def natScale {p : ℕ} (P : ZMod p × ZMod p) : ℕ → ZMod p × ZMod p
  | 0 => (0, 0)
  | 1 => P
  | n + 2 => ecAdd P (natScale P (n + 1))

/-- Concrete witness instance of the group interface: the curve
y ^ 2 = x ^ 3 + 5 over the field with 7 elements has exactly 7 points,
so its affine points form the nonzero part of a cyclic group of prime
order 7 generated by (3, 2). -/
def ecOps : GroupOps 7 7 where
  generator := (3, 2)
  add := ecAdd
  scale := fun P b => natScale P b.val

theorem ecOps_spec : GroupSpec 7 7 ecOps := by
  constructor <;> decide

/-- Concrete hash instance for witnesses. Modelled from the spec: the
hash collaborator is a black box from field element lists to field
elements, so any concrete such function instantiates it. -/
def hashW : List (ZMod 7) → ZMod 7 := fun l => l.sum + 1

/-- C2: for every compressed public key (x, isOdd) such that x ^ 3 + 5
is a quadratic residue, decompression computes ySquared = x * x * x + 5,
takes the canonical square root someY of the field, and returns the
point (x, y) where y = someY when isOdd equals the low bit of someY and
y = -someY otherwise, in exactly that selection order. -/
theorem claim_C2 {p : ℕ} [NeZero p] (pk : PublicKey p)
    (h : ∃ y : ZMod p, y * y = pk.x * pk.x * pk.x + 5) :
    ∃ someY : ZMod p,
      fieldSqrt? (pk.x * pk.x * pk.x + 5) = some someY ∧
      someY * someY = pk.x * pk.x * pk.x + 5 ∧
      PublicKey.toGroup pk =
        some (pk.x, if pk.isOdd == lowBit someY then someY else -someY) := by
  obtain ⟨someY, hsq, hss⟩ := fieldSqrt?_exists h
  exact ⟨someY, hsq, hss, toGroup_eq_some hsq⟩

theorem claim_C2_witness :
    (∃ y : ZMod 7, y * y = (3 : ZMod 7) * 3 * 3 + 5) ∧
    ∃ someY : ZMod 7,
      fieldSqrt? ((3 : ZMod 7) * 3 * 3 + 5) = some someY ∧
      someY * someY = (3 : ZMod 7) * 3 * 3 + 5 ∧
      PublicKey.toGroup (⟨3, true⟩ : PublicKey 7) =
        some (3, if true == lowBit someY then someY else -someY) :=
  ⟨by decide, claim_C2 ⟨3, true⟩ (by decide)⟩

/-- C8: for every compressed public key (x, isOdd) such that x ^ 3 + 5
has no square root in the field, decompression fails with none; it never
silently returns a point. -/
theorem claim_C8 {p : ℕ} (pk : PublicKey p)
    (h : ¬ ∃ y : ZMod p, y * y = pk.x * pk.x * pk.x + 5) :
    PublicKey.toGroup pk = none := by
  unfold PublicKey.toGroup
  rw [fieldSqrt?_eq_none h]
  rfl

theorem claim_C8_witness :
    (¬ ∃ y : ZMod 7, y * y = (0 : ZMod 7) * 0 * 0 + 5) ∧
    PublicKey.toGroup (⟨0, false⟩ : PublicKey 7) = none :=
  ⟨by decide, claim_C8 ⟨0, false⟩ (by decide)⟩

/-- C7: for every public key satisfying the invariant of the spec,
verification returns a boolean value; it never fails, whatever the
message and signature. -/
theorem claim_C7 {p q : ℕ} [NeZero p] (g : GroupOps p q)
    (hash : List (ZMod p) → ZMod p) (sig : Signature p q) (pk : PublicKey p)
    (msg : List (ZMod p))
    (h : ∃ y : ZMod p, y * y = pk.x * pk.x * pk.x + 5 ∧ lowBit y = pk.isOdd) :
    (Signature.verify g hash sig pk msg).isSome = true := by
  obtain ⟨y, hy, _⟩ := h
  obtain ⟨someY, hsq, _⟩ := fieldSqrt?_exists ⟨y, hy⟩
  unfold Signature.verify
  rw [toGroup_eq_some hsq, Option.map_some']
  rfl

theorem claim_C7_witness :
    (∃ y : ZMod 7, y * y = (3 : ZMod 7) * 3 * 3 + 5 ∧ lowBit y = false) ∧
    (Signature.verify ecOps hashW ⟨3, 2⟩ ⟨3, false⟩ [1]).isSome = true :=
  ⟨by decide, claim_C7 ecOps hashW ⟨3, 2⟩ ⟨3, false⟩ [1] (by decide)⟩

/-- C6: the empty public key is the sentinel (0, false); isEmpty holds
exactly on keys with x = 0; and a key derived from a valid private key
is never empty, because no curve point has x = 0 when 5 is not a square
in the field. -/
theorem claim_C6 {p q : ℕ} (g : GroupOps p q) (hg : GroupSpec p q g)
    (h5 : ∀ y : ZMod p, y * y ≠ 5) (sk : PrivateKey q) (hsk : sk.s ≠ 0) :
    PublicKey.empty p = ⟨0, false⟩ ∧
    (∀ pk : PublicKey p, PublicKey.isEmpty pk = true ↔ pk.x = 0) ∧
    PublicKey.isEmpty (PublicKey.fromPrivateKey g sk) = false := by
  refine ⟨rfl, fun pk => by simp [PublicKey.isEmpty], ?_⟩
  have hcurve : (g.scale g.generator sk.s).2 * (g.scale g.generator sk.s).2 =
      (g.scale g.generator sk.s).1 * (g.scale g.generator sk.s).1 *
        (g.scale g.generator sk.s).1 + 5 :=
    hg.scale_on_curve sk.s hsk
  unfold PublicKey.isEmpty PublicKey.fromPrivateKey PublicKey.fromGroup
  simp only [decide_eq_false_iff_not]
  intro hx0
  rw [hx0] at hcurve
  simp only [zero_mul, mul_zero, zero_add] at hcurve
  exact h5 _ hcurve

theorem claim_C6_witness :
    ((∀ y : ZMod 7, y * y ≠ 5) ∧ (⟨2⟩ : PrivateKey 7).s ≠ 0) ∧
    (PublicKey.empty 7 = ⟨0, false⟩ ∧
      (∀ pk : PublicKey 7, PublicKey.isEmpty pk = true ↔ pk.x = 0) ∧
      PublicKey.isEmpty (PublicKey.fromPrivateKey ecOps ⟨2⟩) = false) :=
  ⟨⟨by decide, by decide⟩, claim_C6 ecOps ecOps_spec (by decide) ⟨2⟩ (by decide)⟩

/-- C9: public key derivation is a pure function of the private key
scalar: two runs on private keys holding the same scalar return the
identical public key, with no dependence on anything else. -/
theorem claim_C9 {p q : ℕ} (g : GroupOps p q) (sk1 sk2 : PrivateKey q)
    (h : sk1.s = sk2.s) :
    PublicKey.fromPrivateKey g sk1 = PublicKey.fromPrivateKey g sk2 := by
  cases sk1; cases sk2; cases h; rfl

theorem claim_C9_witness :
    ((⟨2⟩ : PrivateKey 7).s = (⟨2⟩ : PrivateKey 7).s) ∧
    PublicKey.fromPrivateKey ecOps ⟨2⟩ = PublicKey.fromPrivateKey ecOps ⟨2⟩ :=
  ⟨rfl, claim_C9 ecOps ⟨2⟩ ⟨2⟩ rfl⟩

/-- C3 counterexample: over the field with 11 elements the input 8 has
8 ^ 3 + 5 = 0, a square, so the compressed pair (8, true) is valid in
the sense of the claim, yet it does not survive the round trip:
decompression selects y = 0, whose low bit is false, so recompression
returns (8, false). -/
theorem claim_C3_counterexample :
    (∃ y : ZMod 11, y * y = (8 : ZMod 11) * 8 * 8 + 5) ∧
    (PublicKey.toGroup (⟨8, true⟩ : PublicKey 11)).map PublicKey.fromGroup ≠
      some (⟨8, true⟩ : PublicKey 11) := by
  constructor <;> decide

/-- C3 amended: compression and decompression are mutually inverse, with
validity of a compressed pair taken as the public key invariant of the
spec: decompress after compress is the identity on curve points, and
compress after decompress is the identity on pairs (x, isOdd) admitting
a root y of x ^ 3 + 5 whose low bit equals isOdd. -/
theorem claim_C3 {p : ℕ} [Fact p.Prime] (hp : p % 2 = 1) :
    (∀ P : ZMod p × ZMod p, onCurve P →
      PublicKey.toGroup (PublicKey.fromGroup P) = some P) ∧
    (∀ pk : PublicKey p,
      (∃ y : ZMod p, y * y = pk.x * pk.x * pk.x + 5 ∧ lowBit y = pk.isOdd) →
      (PublicKey.toGroup pk).map PublicKey.fromGroup = some pk) := by
  refine ⟨fun P hP => toGroup_fromGroup hp P hP, ?_⟩
  rintro ⟨px, podd⟩ ⟨y, hy, hparity⟩
  obtain ⟨someY, hsq, hss⟩ := fieldSqrt?_exists ⟨y, hy⟩
  rw [toGroup_eq_some hsq, Option.map_some']
  have hcases : someY = y ∨ someY = -y :=
    mul_self_eq_mul_self_iff.mp (hss.trans hy.symm)
  unfold PublicKey.fromGroup
  simp only [Option.some.injEq, PublicKey.mk.injEq, true_and]
  rcases hcases with hc | hc
  · subst hc
    rw [hparity]
    simp [hparity]
  · by_cases hy0 : y = 0
    · rw [hy0] at hc hparity
      rw [lowBit_zero] at hparity
      subst hparity
      rw [hc]
      simp [lowBit_zero]
    · have hlb : lowBit someY = !lowBit y := by
        rw [hc]; exact lowBit_neg hp hy0
      rw [hlb, hparity, hc]
      simp [hparity]

theorem claim_C3_witness :
    ((11 : ℕ) % 2 = 1) ∧
    (onCurve ((4, 5) : ZMod 11 × ZMod 11) ∧
      PublicKey.toGroup (PublicKey.fromGroup ((4, 5) : ZMod 11 × ZMod 11)) =
        some (4, 5)) ∧
    ((∃ y : ZMod 11, y * y = (4 : ZMod 11) * 4 * 4 + 5 ∧ lowBit y = true) ∧
      (PublicKey.toGroup (⟨4, true⟩ : PublicKey 11)).map PublicKey.fromGroup =
        some ⟨4, true⟩) := by
  have hcurve : onCurve ((4, 5) : ZMod 11 × ZMod 11) := by decide
  have hinv : ∃ y : ZMod 11, y * y = (4 : ZMod 11) * 4 * 4 + 5 ∧ lowBit y = true := by
    decide
  haveI : Fact (Nat.Prime 11) := ⟨by norm_num⟩
  exact ⟨by decide, ⟨hcurve, (@claim_C3 11 ⟨by norm_num⟩ (by decide)).1 (4, 5) hcurve⟩,
    ⟨hinv, (@claim_C3 11 ⟨by norm_num⟩ (by decide)).2 ⟨4, true⟩ hinv⟩⟩

/-- Unfolding of verification once decompression of the public key is
known to succeed. -/
theorem verify_eq {p q : ℕ} (g : GroupOps p q) (hash : List (ZMod p) → ZMod p)
    (r : ZMod p) (s : ZMod q) (pk : PublicKey p) (msg : List (ZMod p))
    (point : ZMod p × ZMod p) (hpt : PublicKey.toGroup pk = some point) :
    Signature.verify g hash ⟨r, s⟩ pk msg =
      some ((decide ((g.add (pointNeg (g.scale point
          (scalarFromBits q (hash (msg ++ [point.1, point.2, r])))))
          (g.scale g.generator s)).1 = r)) &&
        (decide (lowBit (g.add (pointNeg (g.scale point
          (scalarFromBits q (hash (msg ++ [point.1, point.2, r])))))
          (g.scale g.generator s)).2 = false))) := by
  unfold Signature.verify
  rw [hpt, Option.map_some']

/-- Unfolding of signing once decompression of the derived public key is
known to succeed. -/
theorem create_eq {p q : ℕ} (g : GroupOps p q) (hash : List (ZMod p) → ZMod p)
    (sk : PrivateKey q) (msg : List (ZMod p)) (kPrime : ZMod q)
    (point : ZMod p × ZMod p)
    (hpt : PublicKey.toGroup (PublicKey.fromPrivateKey g sk) = some point) :
    Signature.create g hash sk msg kPrime =
      some ⟨(g.scale g.generator kPrime).1,
        scalarFromBits q (hash (msg ++ [point.1, point.2,
          (g.scale g.generator kPrime).1])) * sk.s +
        (if lowBit (g.scale g.generator kPrime).2 then -kPrime else kPrime)⟩ := by
  unfold Signature.create
  rw [hpt, Option.map_some']

/-- C4: verification computes the candidate point
(-e) point + s Generator, with point the decompressed public key and e
the recomputed challenge, and accepts exactly when the candidate has x
coordinate r and even y parity. -/
theorem claim_C4 {p q : ℕ} (g : GroupOps p q) (hg : GroupSpec p q g)
    (hash : List (ZMod p) → ZMod p) (sig : Signature p q) (pk : PublicKey p)
    (msg : List (ZMod p)) (point : ZMod p × ZMod p)
    (hpt : PublicKey.toGroup pk = some point)
    (he : scalarFromBits q (hash (msg ++ [point.1, point.2, sig.r])) ≠ 0) :
    Signature.verify g hash sig pk msg = some true ↔
      ((g.add (g.scale point
          (-scalarFromBits q (hash (msg ++ [point.1, point.2, sig.r]))))
          (g.scale g.generator sig.s)).1 = sig.r ∧
        lowBit (g.add (g.scale point
          (-scalarFromBits q (hash (msg ++ [point.1, point.2, sig.r]))))
          (g.scale g.generator sig.s)).2 = false) := by
  have honc : onCurve point := (toGroup_onCurve hpt).1
  have hneg := hg.neg_scale point
    (scalarFromBits q (hash (msg ++ [point.1, point.2, sig.r]))) honc he
  rw [verify_eq g hash sig.r sig.s pk msg point hpt, ← hneg]
  simp only [Option.some.injEq, Bool.and_eq_true, decide_eq_true_eq]

theorem claim_C4_witness :
    (PublicKey.toGroup (⟨3, false⟩ : PublicKey 7) = some (3, 2)) ∧
    (scalarFromBits 7 (hashW ([1] ++ [(3 : ZMod 7), 2, 3])) ≠ 0) ∧
    (Signature.verify ecOps hashW ⟨3, 2⟩ ⟨3, false⟩ [1] = some true ↔
      ((ecOps.add (ecOps.scale (3, 2)
          (-scalarFromBits 7 (hashW ([1] ++ [(3 : ZMod 7), 2, 3]))))
          (ecOps.scale ecOps.generator 2)).1 = 3 ∧
        lowBit (ecOps.add (ecOps.scale (3, 2)
          (-scalarFromBits 7 (hashW ([1] ++ [(3 : ZMod 7), 2, 3]))))
          (ecOps.scale ecOps.generator 2)).2 = false)) := by
  have h1 : PublicKey.toGroup (⟨3, false⟩ : PublicKey 7) = some (3, 2) := by decide
  have h2 : scalarFromBits 7 (hashW ([1] ++ [(3 : ZMod 7), 2, 3])) ≠ 0 := by decide
  exact ⟨h1, h2, claim_C4 ecOps ecOps_spec hashW ⟨3, 2⟩ ⟨3, false⟩ [1] (3, 2) h1 h2⟩

/-- Modelled from the spec, as the comparison definition for the
refinement claim C5: the signing equations of the spec written directly
on the full public key point Generator times priv.s. -/
def specSign {p q : ℕ} (g : GroupOps p q) (hash : List (ZMod p) → ZMod p)
    (privKey : PrivateKey q) (msg : List (ZMod p)) (kPrime : ZMod q) :
    Signature p q :=
  let point := g.scale g.generator privKey.s
  let r := (g.scale g.generator kPrime).1
  let ry := (g.scale g.generator kPrime).2
  let k := if lowBit ry then -kPrime else kPrime
  let e : ZMod q := scalarFromBits q (hash (msg ++ [point.1, point.2, r]))
  ⟨r, e * privKey.s + k⟩

/-- C5: signing normalizes the nonce by the parity of the nonce point,
derives the challenge by reinterpreting the hash of the message extended
with the public key point coordinates and r, and returns r together with
e times d plus k, exactly the equations of the spec. -/
theorem claim_C5 {p q : ℕ} [Fact p.Prime] (hp : p % 2 = 1)
    (g : GroupOps p q) (hg : GroupSpec p q g) (hash : List (ZMod p) → ZMod p)
    (sk : PrivateKey q) (msg : List (ZMod p)) (kPrime : ZMod q)
    (hd : sk.s ≠ 0) :
    Signature.create g hash sk msg kPrime =
      some (specSign g hash sk msg kPrime) := by
  have hrt : PublicKey.toGroup (PublicKey.fromPrivateKey g sk) =
      some (g.scale g.generator sk.s) :=
    toGroup_fromGroup hp _ (hg.scale_on_curve sk.s hd)
  unfold specSign
  rw [create_eq g hash sk msg kPrime _ hrt]

theorem claim_C5_witness :
    ((7 : ℕ) % 2 = 1) ∧ ((⟨1⟩ : PrivateKey 7).s ≠ 0) ∧
    Signature.create ecOps hashW ⟨1⟩ [1, 2] 1 =
      some (specSign ecOps hashW ⟨1⟩ [1, 2] 1) :=
  ⟨by decide, by decide,
    @claim_C5 7 7 ⟨by norm_num⟩ (by decide) ecOps ecOps_spec hashW ⟨1⟩ [1, 2] 1
      (by decide)⟩

/-- C10: signing is invariant under negation of the nonce: runs on
kPrime and on -kPrime produce the identical signature, because negation
keeps the x coordinate of the nonce point and flips its parity, so the
normalization selects the same nonce in both runs. -/
theorem claim_C10 {p q : ℕ} [NeZero p] (hp : p % 2 = 1)
    (g : GroupOps p q) (hg : GroupSpec p q g) (hash : List (ZMod p) → ZMod p)
    (sk : PrivateKey q) (msg : List (ZMod p)) (kPrime : ZMod q)
    (hk : kPrime ≠ 0) :
    Signature.create g hash sk msg kPrime =
      Signature.create g hash sk msg (-kPrime) := by
  have hscale : g.scale g.generator (-kPrime) = pointNeg (g.scale g.generator kPrime) :=
    hg.scale_neg kPrime hk
  have hry : (g.scale g.generator kPrime).2 ≠ 0 := hg.scale_snd_ne kPrime hk
  have hk2 : (if lowBit (-(g.scale g.generator kPrime).2) then -(-kPrime) else -kPrime)
      = (if lowBit (g.scale g.generator kPrime).2 then -kPrime else kPrime) := by
    rw [lowBit_neg hp hry]
    cases lowBit (g.scale g.generator kPrime).2 <;> simp
  unfold Signature.create
  cases hpk : PublicKey.toGroup (PublicKey.fromPrivateKey g sk) with
  | none => rfl
  | some publicKey =>
    rw [Option.map_some', Option.map_some', hscale]
    simp only [pointNeg, hk2]

theorem claim_C10_witness :
    ((7 : ℕ) % 2 = 1) ∧ ((3 : ZMod 7) ≠ 0) ∧
    Signature.create ecOps hashW ⟨1⟩ [1, 2] 3 =
      Signature.create ecOps hashW ⟨1⟩ [1, 2] (-3) :=
  ⟨by decide, by decide,
    claim_C10 (by decide) ecOps ecOps_spec hashW ⟨1⟩ [1, 2] 3 (by decide)⟩

/-- C1: a signature created with a private key verifies against the
derived public key on the same message, under the genericity side
conditions keeping the affine group model away from the point at
infinity: nonzero private scalar, nonzero nonce, nonzero challenge and
nonzero signature scalar. -/
theorem claim_C1 {p q : ℕ} [Fact p.Prime] [Fact q.Prime] (hp : p % 2 = 1)
    (g : GroupOps p q) (hg : GroupSpec p q g) (hash : List (ZMod p) → ZMod p)
    (sk : PrivateKey q) (msg : List (ZMod p)) (kPrime : ZMod q)
    (hd : sk.s ≠ 0) (hk : kPrime ≠ 0)
    (he : scalarFromBits q (hash (msg ++ [(g.scale g.generator sk.s).1,
      (g.scale g.generator sk.s).2, (g.scale g.generator kPrime).1])) ≠ 0)
    (hs : scalarFromBits q (hash (msg ++ [(g.scale g.generator sk.s).1,
      (g.scale g.generator sk.s).2, (g.scale g.generator kPrime).1])) * sk.s +
      (if lowBit (g.scale g.generator kPrime).2 then -kPrime else kPrime) ≠ 0) :
    (Signature.create g hash sk msg kPrime).bind
      (fun sig => Signature.verify g hash sig (PublicKey.fromPrivateKey g sk) msg) =
      some true := by
  have honc : onCurve (g.scale g.generator sk.s) := hg.scale_on_curve sk.s hd
  have hrt : PublicKey.toGroup (PublicKey.fromPrivateKey g sk) =
      some (g.scale g.generator sk.s) := toGroup_fromGroup hp _ honc
  rw [create_eq g hash sk msg kPrime _ hrt, Option.some_bind,
    verify_eq g hash _ _ _ msg _ hrt]
  set E := scalarFromBits q (hash (msg ++ [(g.scale g.generator sk.s).1,
    (g.scale g.generator sk.s).2, (g.scale g.generator kPrime).1])) with hE
  set K := (if lowBit (g.scale g.generator kPrime).2 then -kPrime else kPrime) with hK
  have hknz : K ≠ 0 := by
    rw [hK]
    cases lowBit (g.scale g.generator kPrime).2 <;> simp [hk]
  have hmne : sk.s * E ≠ 0 := mul_ne_zero hd he
  have hnegne : -(sk.s * E) ≠ 0 := by simpa using hmne
  have hsumne : -(sk.s * E) + (E * sk.s + K) ≠ 0 := by
    have heq : -(sk.s * E) + (E * sk.s + K) = K := by ring
    rw [heq]; exact hknz
  rw [hg.scale_scale sk.s E hd he,
    ← hg.scale_neg (sk.s * E) hmne,
    hg.scale_add (-(sk.s * E)) (E * sk.s + K) hnegne hs hsumne,
    show -(sk.s * E) + (E * sk.s + K) = K from by ring]
  cases hlb : lowBit (g.scale g.generator kPrime).2 with
  | false =>
    have hKk : K = kPrime := by rw [hK, hlb]; rfl
    rw [hKk]
    simp [hlb]
  | true =>
    have hKk : K = -kPrime := by rw [hK, hlb]; rfl
    have hry : (g.scale g.generator kPrime).2 ≠ 0 := by
      intro h0; rw [h0, lowBit_zero] at hlb; exact Bool.noConfusion hlb
    rw [hKk, hg.scale_neg kPrime hk]
    simp [pointNeg, lowBit_neg hp hry, hlb]

theorem claim_C1_witness :
    ((7 : ℕ) % 2 = 1) ∧ ((⟨1⟩ : PrivateKey 7).s ≠ 0) ∧ ((1 : ZMod 7) ≠ 0) ∧
    (scalarFromBits 7 (hashW ([1, 2] ++ [(ecOps.scale ecOps.generator (1 : ZMod 7)).1,
      (ecOps.scale ecOps.generator (1 : ZMod 7)).2,
      (ecOps.scale ecOps.generator (1 : ZMod 7)).1])) ≠ 0) ∧
    (scalarFromBits 7 (hashW ([1, 2] ++ [(ecOps.scale ecOps.generator (1 : ZMod 7)).1,
      (ecOps.scale ecOps.generator (1 : ZMod 7)).2,
      (ecOps.scale ecOps.generator (1 : ZMod 7)).1])) * (1 : ZMod 7) +
      (if lowBit (ecOps.scale ecOps.generator (1 : ZMod 7)).2 then -(1 : ZMod 7) else 1) ≠ 0) ∧
    ((Signature.create ecOps hashW ⟨1⟩ [1, 2] 1).bind
      (fun sig => Signature.verify ecOps hashW sig
        (PublicKey.fromPrivateKey ecOps ⟨1⟩) [1, 2]) = some true) :=
  ⟨by decide, by decide, by decide, by decide, by decide,
    @claim_C1 7 7 ⟨by norm_num⟩ ⟨by norm_num⟩ (by decide) ecOps ecOps_spec hashW ⟨1⟩ [1, 2] 1
      (by decide) (by decide) (by decide) (by decide)⟩

end O1jsSignature
